import Mathlib

/-!
Shallow embedding of `lib/mmgblcflow.py`.

Tensors with a batch dimension `(n, c, h, w)` are modelled per sample: a
`Tensor4` records the channel, height and width sizes together with the
row-major flattened data of one sample.  Every tensor operation that the
flow model performs on the batch axis-1 dimension acts identically and
independently on each sample, so the per-sample model captures it exactly:
slicing the first `d` channels (`x[:, :d]`) keeps the first `d*h*w` entries
of the row-major data, slicing `x[:, d:]` drops them, concatenation along
the channel dimension (`torch.cat(..., dim=1)`) appends the data lists, and
the flattening view `o.view(o.size()[0], -1)` leaves the data unchanged.

The per-scale invertible transform groups (`StackedMMGbLcBlocks` /
`StackedCouplingBlocks`, whose layer implementations live in `lib.layers`,
outside this file) are abstracted as pairs of functions `fwd`/`inv` on
tensors, together with the accumulator-threading variants `fwdL`/`invL`
that model calling `forward(x, logpx)` / `inverse(z, logpz)` with a
non-None log-probability accumulator.
-/

structure Tensor4 (α : Type) where
  c : Nat
  h : Nat
  w : Nat
  data : List α
deriving DecidableEq

/-- Number of elements of one sample, `c * h * w`. -/
def Tensor4.numel {α : Type} (t : Tensor4 α) : Nat := t.c * t.h * t.w

/-- The (channels, height, width) shape of a per-sample tensor. -/
def Tensor4.shape {α : Type} (t : Tensor4 α) : Nat × Nat × Nat := (t.c, t.h, t.w)

/-- Well-formedness: the flattened data holds exactly `c * h * w` entries. -/
def Tensor4.wf {α : Type} (t : Tensor4 α) : Prop := t.data.length = t.numel

/-- Model of `x[:, :d]`: keep the first `d` channels.  In row-major order
these are the first `d * h * w` entries of the per-sample data. -/
def chanTake {α : Type} (d : Nat) (t : Tensor4 α) : Tensor4 α :=
  ⟨d, t.h, t.w, t.data.take (d * t.h * t.w)⟩

/-- Model of `x[:, d:]`: drop the first `d` channels. -/
def chanDrop {α : Type} (d : Nat) (t : Tensor4 α) : Tensor4 α :=
  ⟨t.c - d, t.h, t.w, t.data.drop (d * t.h * t.w)⟩

/-- Model of `torch.cat((a, b), dim=1)`: concatenation on the channel axis
appends the row-major per-sample data. -/
def chanCat {α : Type} (a b : Tensor4 α) : Tensor4 α :=
  ⟨a.c + b.c, a.h, a.w, a.data ++ b.data⟩

/-- Abstract model of one per-scale transform group
(`StackedMMGbLcBlocks` or `StackedCouplingBlocks`): its `forward(x)` and
`inverse(z)` methods, and the variants `forward(x, logpx)` /
`inverse(z, logpz)` that also thread a log-probability accumulator. -/
structure FlowTransform (α L : Type) where
  fwd : Tensor4 α → Tensor4 α
  inv : Tensor4 α → Tensor4 α
  fwdL : Tensor4 α → L → Tensor4 α × L
  invL : Tensor4 α → L → Tensor4 α × L

/-- The `out` list built by `MMGbLcFlow.forward` with `factor_out=True` and
`logpx=None` (loop at lines 413-429 of the source): each transform is
applied in index order; at every index but the last, `d = x.size(1) // 2`
channels are kept and the remaining channels are appended to `out` as a
latent; finally the running tensor itself is appended. -/
def forwardOuts {α L : Type} : List (FlowTransform α L) → Tensor4 α → List (Tensor4 α)
  | [], x => [x]
  | t :: ts, x =>
    let y := t.fwd x
    match ts with
    | [] => [y]
    | _ :: _ =>
      let d := y.c / 2
      chanDrop d y :: forwardOuts ts (chanTake d y)

/-- Model of `MMGbLcFlow.forward` with `factor_out=True`, `logpx=None`,
`classify=False`: the flattened concatenation
`torch.cat([o.view(o.size()[0], -1) for o in out], 1)` per sample. -/
def mmflowForward {α L : Type} (ts : List (FlowTransform α L)) (x : Tensor4 α) : List α :=
  ((forwardOuts ts x).map Tensor4.data).flatten

/-- The latents factored out by `MMGbLcFlow.forward`: everything in `out`
except the final running tensor. -/
def mmflowLatents {α L : Type} (ts : List (FlowTransform α L)) (x : Tensor4 α) :
    List (Tensor4 α) :=
  (forwardOuts ts x).dropLast

/-- Model of the slicing loop of `MMGbLcFlow.inverse` (`factor_out=True`):
the flattened input is cut into consecutive pieces of `np.prod(dims)`
entries, each viewed with the recorded per-scale shape. -/
def splitByDims {α : Type} : List (Nat × Nat × Nat) → List α → List (Tensor4 α)
  | [], _ => []
  | s :: dims, z =>
    Tensor4.mk s.1 s.2.1 s.2.2 (z.take (s.1 * s.2.1 * s.2.2))
      :: splitByDims dims (z.drop (s.1 * s.2.1 * s.2.2))

/-- The inversion loop of `MMGbLcFlow.inverse` (`factor_out=True`,
`logpz=None`): invert the last transform on the last piece, then walk the
earlier scales in reverse index order, concatenating the stored latent back
onto the channel dimension before inverting that scale's transform. -/
def inverseAux {α L : Type} : List (FlowTransform α L) → List (Tensor4 α) → Tensor4 α
  | [t], z :: _ => t.inv z
  | t :: ta :: ts, z :: zs => t.inv (chanCat (inverseAux (ta :: ts) zs) z)
  | _, _ => ⟨0, 0, 0, []⟩

/-- Model of `MMGbLcFlow.inverse` with `factor_out=True` and `logpz=None`. -/
def mmflowInverse {α L : Type} (ts : List (FlowTransform α L))
    (dims : List (Nat × Nat × Nat)) (z : List α) : Tensor4 α :=
  inverseAux ts (splitByDims dims z)

/-- Model of `MMGbLcFlow.forward` with `factor_out=False` and `logpx=None`: the
transforms are applied in index order with no channel splitting, and the
single surviving tensor is flattened. -/
def mmflowForwardNF {α L : Type} (ts : List (FlowTransform α L)) (x : Tensor4 α) : List α :=
  (ts.foldl (fun a t => t.fwd a) x).data

/-- The reverse-order inversion loop of `MMGbLcFlow.inverse` with
`factor_out=False`: `inv` of index `len-1` is applied first, index 0 last. -/
def invChainNF {α L : Type} : List (FlowTransform α L) → Tensor4 α → Tensor4 α
  | [], z => z
  | t :: ts, z => t.inv (invChainNF ts z)

/-- Model of `MMGbLcFlow.inverse` with `factor_out=False` and `logpz=None`: the flat
input is viewed with shape `self.dims[-1]` and the transforms are inverted
in reverse index order. -/
def mmflowInverseNF {α L : Type} (ts : List (FlowTransform α L))
    (dims : List (Nat × Nat × Nat)) (z : List α) : Tensor4 α :=
  invChainNF ts
    ⟨(dims.getLastD (0, 0, 0)).1, (dims.getLastD (0, 0, 0)).2.1,
      (dims.getLastD (0, 0, 0)).2.2, z⟩

/-- Model of `MMGbLcFlow._calc_n_scale`: count how many times both `h` and `w` are
at least 4, halving both after each count. -/
def calcNScale (h w : Nat) : Nat :=
  if hc : 4 ≤ h ∧ 4 ≤ w then calcNScale (h / 2) (w / 2) + 1 else 0
termination_by h
decreasing_by
  omega

/-- The value `self.n_scale = min(len(n_blocks), self._calc_n_scale(input_size))`
computed in `MMGbLcFlow.__init__` for `input_size = (n, c, h, w)`. -/
def mmflowNScale (nBlocks : List Nat) (input : Nat × Nat × Nat × Nat) : Nat :=
  min nBlocks.length (calcNScale input.2.2.1 input.2.2.2)

/-- Whether `MMGbLcFlow.__init__` raises its `ValueError`: the source
raises exactly when `not self.n_scale > 0`. -/
def mmflowInitRaises (nBlocks : List Nat) (input : Nat × Nat × Nat × Nat) : Bool :=
  !(decide (0 < mmflowNScale nBlocks input))

/-- The `factor_out=True` loop of `MMGbLcFlow.calc_output_size`, written
with the number of remaining iterations as the recursion measure: while
more than one iteration remains (`i < n_scale - 1` in the source), the
running size is updated to `(n, c*2, h//2, w//2)` and appended; the final
iteration appends the running size unchanged. -/
def cosSizes : Nat → Nat × Nat × Nat × Nat → List (Nat × Nat × Nat × Nat)
  | 0, _ => []
  | 1, s => [s]
  | m + 2, s =>
    (s.1, s.2.1 * 2, s.2.2.1 / 2, s.2.2.2 / 2)
      :: cosSizes (m + 1) (s.1, s.2.1 * 2, s.2.2.1 / 2, s.2.2.2 / 2)

/-- Model of `MMGbLcFlow.calc_output_size` as a function of the `factor_out` flag,
the stored `n_scale` and the `(n, c, h, w)` input size. -/
def calc_output_size (factor_out : Bool) (nScale : Nat) (input : Nat × Nat × Nat × Nat) :
    List (Nat × Nat × Nat × Nat) :=
  if !factor_out then
    [(input.1, input.2.1 * 4 ^ (nScale - 1), input.2.2.1 / 2 ^ (nScale - 1),
      input.2.2.2 / 2 ^ (nScale - 1))]
  else cosSizes nScale input

/-- The list `self.dims = [o[1:] for o in self.calc_output_size(input_size)]`. -/
def mmflowDims (factor_out : Bool) (nScale : Nat) (input : Nat × Nat × Nat × Nat) :
    List (Nat × Nat × Nat) :=
  (calc_output_size factor_out nScale input).map (fun s => (s.2.1, s.2.2.1, s.2.2.2))

/-- Shape behaviour of the transform chain built by `MMGbLcFlow._build_net`
with `factor_out=True`: every group but the last ends in a
`SqueezeLayer(2)` and so maps a `(c, h, w)` tensor to a `(c*4, h//2, w//2)`
tensor, after which the flow keeps `c*2` of the squeezed channels for the
next group (line `c, h, w = c * 2, h // 2, w // 2` of the source); the last
group is built with `squeeze=False` and preserves the shape. -/
def SqueezeShapes {α L : Type} : List (FlowTransform α L) → Nat × Nat × Nat → Prop
  | [], _ => True
  | t :: ts, s =>
    match ts with
    | [] => ∀ u : Tensor4 α, u.shape = s → u.wf → (t.fwd u).shape = s ∧ (t.fwd u).wf
    | _ :: _ =>
      (∀ u : Tensor4 α, u.shape = s → u.wf →
          (t.fwd u).shape = (s.1 * 4, s.2.1 / 2, s.2.2 / 2) ∧ (t.fwd u).wf)
        ∧ SqueezeShapes ts (s.1 * 2, s.2.1 / 2, s.2.2 / 2)

/-- Shape behaviour of the chain with `factor_out=False`: the same squeeze
geometry, but all `c*4` channels are handed to the next group
(line `c, h, w = c * 4, h // 2, w // 2` of the source). -/
def SqueezeShapesNF {α L : Type} : List (FlowTransform α L) → Nat × Nat × Nat → Prop
  | [], _ => True
  | t :: ts, s =>
    match ts with
    | [] => ∀ u : Tensor4 α, u.shape = s → u.wf → (t.fwd u).shape = s ∧ (t.fwd u).wf
    | _ :: _ =>
      (∀ u : Tensor4 α, u.shape = s → u.wf →
          (t.fwd u).shape = (s.1 * 4, s.2.1 / 2, s.2.2 / 2) ∧ (t.fwd u).wf)
        ∧ SqueezeShapesNF ts (s.1 * 4, s.2.1 / 2, s.2.2 / 2)

/-- Each transform's `inverse` is a left inverse of its `forward` at the
inputs actually encountered along the `factor_out=True` forward pass. -/
def LeftInvOn {α L : Type} : List (FlowTransform α L) → Tensor4 α → Prop
  | [], _ => True
  | t :: ts, x =>
    match ts with
    | [] => t.inv (t.fwd x) = x
    | _ :: _ =>
      t.inv (t.fwd x) = x ∧ LeftInvOn ts (chanTake ((t.fwd x).c / 2) (t.fwd x))

/-- Each transform's `inverse` is a left inverse of its `forward` at the
inputs encountered along the `factor_out=False` forward pass. -/
def LeftInvChainNF {α L : Type} : List (FlowTransform α L) → Tensor4 α → Prop
  | [], _ => True
  | t :: ts, x => t.inv (t.fwd x) = x ∧ LeftInvChainNF ts (t.fwd x)

/-- Return value of `MMGbLcFlow.forward` (`classify=False`): either the
flattened output alone (when `logpx` is None) or the pair with the final
accumulator. -/
inductive FlowOut (α L : Type) where
  | plain (out : List α)
  | withLogp (out : List α) (logpx : L)
deriving DecidableEq

/-- Return value of `MMGbLcFlow.inverse`: either the reconstructed tensor
alone (when `logpz` is None) or the pair with the final accumulator. -/
inductive FlowInvOut (α L : Type) where
  | plain (z : Tensor4 α)
  | withLogp (z : Tensor4 α) (logpz : L)
deriving DecidableEq

/-- The forward loop of `MMGbLcFlow.forward` with `factor_out=True`,
tracking the optional accumulator exactly as the per-iteration
`if logpx is not None` branch does: returns the `out` list and the final
accumulator. -/
def forwardState {α L : Type} :
    List (FlowTransform α L) → Tensor4 α → Option L → List (Tensor4 α) × Option L
  | [], x, lp => ([x], lp)
  | t :: ts, x, lp =>
    let step : Tensor4 α × Option L :=
      match lp with
      | none => (t.fwd x, none)
      | some l => ((t.fwdL x l).1, some (t.fwdL x l).2)
    match ts with
    | [] => ([step.1], step.2)
    | _ :: _ =>
      let d := step.1.c / 2
      let r := forwardState ts (chanTake d step.1) step.2
      (chanDrop d step.1 :: r.1, r.2)

/-- Model of `MMGbLcFlow.forward` with `factor_out=True` and an optional `logpx`:
`output = out if logpx is None else (out, logpx)`. -/
def mmflowForwardO {α L : Type} (ts : List (FlowTransform α L)) (x : Tensor4 α)
    (logpx : Option L) : FlowOut α L :=
  let r := forwardState ts x logpx
  let out := (r.1.map Tensor4.data).flatten
  match r.2 with
  | none => FlowOut.plain out
  | some l => FlowOut.withLogp out l

/-- The log-probability accumulator produced by threading `logpx` through
every transform in index order, with the tensor trajectory of the plain
forward pass. -/
def forwardLogpAcc {α L : Type} : List (FlowTransform α L) → Tensor4 α → L → L
  | [], _, l => l
  | t :: ts, x, l =>
    match ts with
    | [] => (t.fwdL x l).2
    | _ :: _ =>
      forwardLogpAcc ts (chanTake ((t.fwd x).c / 2) (t.fwd x)) (t.fwdL x l).2

/-- The accumulator-threading inversion loop of `MMGbLcFlow.inverse` with
`factor_out=True` and `logpz` not None: the last transform consumes the
accumulator first, then the earlier scales update it in reverse index
order. -/
def inverseStateL {α L : Type} :
    List (FlowTransform α L) → List (Tensor4 α) → L → Tensor4 α × L
  | [t], z :: _, l => t.invL z l
  | t :: ta :: ts, z :: zs, l =>
    let r := inverseStateL (ta :: ts) zs l
    t.invL (chanCat r.1 z) r.2
  | _, _, l => (⟨0, 0, 0, []⟩, l)

/-- The accumulator of the reverse-order inversion pass, with the tensor
trajectory written via the plain `inverseAux`: the accumulator handed to
the transform at index `idx` is the one already threaded through all
transforms of larger index. -/
def inverseLogpAcc {α L : Type} : List (FlowTransform α L) → List (Tensor4 α) → L → L
  | [t], z :: _, l => (t.invL z l).2
  | t :: ta :: ts, z :: zs, l =>
    (t.invL (chanCat (inverseAux (ta :: ts) zs) z) (inverseLogpAcc (ta :: ts) zs l)).2
  | _, _, l => l

/-- Model of `MMGbLcFlow.inverse` with `factor_out=True` and an optional `logpz`. -/
def mmflowInverseO {α L : Type} (ts : List (FlowTransform α L))
    (dims : List (Nat × Nat × Nat)) (z : List α) (logpz : Option L) : FlowInvOut α L :=
  match logpz with
  | none => FlowInvOut.plain (inverseAux ts (splitByDims dims z))
  | some l =>
    let r := inverseStateL ts (splitByDims dims z) l
    FlowInvOut.withLogp r.1 r.2

/-- A transform's accumulator-threading methods return the same tensor as
the accumulator-free ones (true of every layer the flow stacks: the
accumulator only collects log-determinant terms). -/
def ConsistentL {α L : Type} (t : FlowTransform α L) : Prop :=
  (∀ x l, (t.fwdL x l).1 = t.fwd x) ∧ (∀ z l, (t.invL z l).1 = t.inv z)

/-- The forward loop of `MMGbLcFlow.forward` with `factor_out=True`,
`classify=True` and `logpx=None`.  The third argument is the current value
of the Python local variable `f` (None when not yet assigned).  Returns
the `out` list together with the list of tensors passed to the
classification heads, or the runtime error raised when
`self.classification_heads[idx](f)` reads `f` before any assignment. -/
def forwardClassify {α L : Type} :
    List (FlowTransform α L) → Tensor4 α → Option (Tensor4 α) →
      Except String (List (Tensor4 α) × List (Tensor4 α))
  | [], x, _ => Except.ok ([x], [])
  | t :: ts, x, fPrev =>
    let y := t.fwd x
    match ts with
    | [] =>
      match fPrev with
      | none => Except.error "UnboundLocalError: local variable f referenced before assignment"
      | some f => Except.ok ([y], [f])
    | _ :: _ =>
      let d := y.c / 2
      let f := chanDrop d y
      match forwardClassify ts (chanTake d y) (some f) with
      | Except.ok r => Except.ok (f :: r.1, f :: r.2)
      | Except.error e => Except.error e

/-- Model of `MMGbLcFlow.forward` with `classify=True`, `factor_out=True`,
`logpx=None`: the loop starts with the local `f` unassigned. -/
def mmflowForwardClassify {α L : Type} (ts : List (FlowTransform α L)) (x : Tensor4 α) :
    Except String (List (Tensor4 α) × List (Tensor4 α)) :=
  forwardClassify ts x none

/-- Constructor arguments of one `MMGbLcBlock` as built by
`MMGbLcStage.__init__`. -/
structure StageBlockSpec where
  in_channels : Nat
  out_channels : Nat
  downscale : Bool
deriving DecidableEq

/-- The block list built by `MMGbLcStage.__init__`: for each
`index in range(depth)`, an `MMGbLcBlock` with
`in_channels = in_channels if index == 0 else out_channels` and
`downscale = index == 0`. -/
def mmgblcStageBlocks (depth in_channels out_channels : Nat) : List StageBlockSpec :=
  (List.range depth).map (fun index =>
    ⟨if index = 0 then in_channels else out_channels, out_channels, index == 0⟩)

/-- Whether the two `assert` statements at the top of `MMGbLc.__init__`
both pass: `len(depths) == len(channels)` and
`global_pool in ["avg", "max"]`. -/
def mmgblcInitOk (depths channels : List Nat) (global_pool : String) : Bool :=
  decide (depths.length = channels.length)
    && (global_pool == "avg" || global_pool == "max")

/-- The three sub-modules of `MMGbLcBlock` (the backbone block defined at
the top of the source file), as abstract functions. -/
structure MMGbLcBlockModel (α : Type) where
  mb_conv : α → α
  block_transformer : α → α
  grid_transformer : α → α

/-- Model of `MMGbLcBlock.forward`:
`output = self.grid_transformer(self.block_transformer(self.mb_conv(input)))`. -/
def MMGbLcBlockModel.forward {α : Type} (b : MMGbLcBlockModel α) (input : α) : α :=
  b.grid_transformer (b.block_transformer (b.mb_conv input))

/-- The classifier head assigned by `MMGbLc.reset_classifier`. -/
inductive HeadModel where
  | linear (in_features : Nat) (num_classes : Int)
  | identity
deriving DecidableEq

/-- The value of the attribute `self.num_features` on an `MMGbLc`
instance.  `MMGbLc.__init__` assigns only `num_classes`, `stem`, `stages`,
`global_pool` and `head`, and no other method of the class assigns
`num_features` either, so reading it always raises `AttributeError`:
the attribute is absent. -/
def mmgblcNumFeatures : Option Nat := none

/-- Model of `MMGbLc.reset_classifier`: the head assignment evaluates
`nn.Linear(self.num_features, num_classes)` only when `num_classes > 0`
(reading the attribute, which raises `AttributeError` when absent), and
`nn.Identity()` otherwise. -/
def reset_classifier (num_features : Option Nat) (num_classes : Int) :
    Except String HeadModel :=
  if 0 < num_classes then
    match num_features with
    | some nf => Except.ok (HeadModel.linear nf num_classes)
    | none => Except.error "AttributeError: num_features"
  else Except.ok HeadModel.identity

/-- The `factor_out=False` loop of `MMGbLcFlow.forward`, tracking the
optional accumulator exactly as the per-iteration `if logpx is not None`
branch does: no channel splitting, only the running tensor and the
accumulator. -/
def forwardStateNF {α L : Type} :
    List (FlowTransform α L) → Tensor4 α → Option L → Tensor4 α × Option L
  | [], x, lp => (x, lp)
  | t :: ts, x, lp =>
    match lp with
    | none => forwardStateNF ts (t.fwd x) none
    | some l => forwardStateNF ts (t.fwdL x l).1 (some (t.fwdL x l).2)

/-- Model of `MMGbLcFlow.forward` with `factor_out=False` and an optional
`logpx`: the final `output = out if logpx is None else (out, logpx)`,
where `out` is the flattened surviving tensor. -/
def mmflowForwardONF {α L : Type} (ts : List (FlowTransform α L)) (x : Tensor4 α)
    (logpx : Option L) : FlowOut α L :=
  match (forwardStateNF ts x logpx).2 with
  | none => FlowOut.plain (forwardStateNF ts x logpx).1.data
  | some l => FlowOut.withLogp (forwardStateNF ts x logpx).1.data l

/-- The accumulator produced by threading `logpx` through every transform
in index order along the `factor_out=False` forward pass, with the tensor
trajectory of the plain forward pass. -/
def forwardLogpAccNF {α L : Type} : List (FlowTransform α L) → Tensor4 α → L → L
  | [], _, l => l
  | t :: ts, x, l => forwardLogpAccNF ts (t.fwd x) (t.fwdL x l).2

/-- The tensor `z.view(z.shape[0], *self.dims[-1])` built at the start of
the `factor_out=False` branch of `MMGbLcFlow.inverse`. -/
def viewLastDim {α : Type} (dims : List (Nat × Nat × Nat)) (z : List α) : Tensor4 α :=
  ⟨(dims.getLastD (0, 0, 0)).1, (dims.getLastD (0, 0, 0)).2.1,
    (dims.getLastD (0, 0, 0)).2.2, z⟩

/-- The reverse-index-order inversion loop of `MMGbLcFlow.inverse` with
`factor_out=False` (source lines 462-469), with its per-iteration
`if logpz is None` branch: the transform at index `len-1` is applied
first, index 0 last, the accumulator threaded along. -/
def invChainNFO {α L : Type} :
    List (FlowTransform α L) → Tensor4 α → Option L → Tensor4 α × Option L
  | [], z, lp => (z, lp)
  | t :: ts, z, lp =>
    match (invChainNFO ts z lp).2 with
    | none => (t.inv (invChainNFO ts z lp).1, none)
    | some l =>
      ((t.invL (invChainNFO ts z lp).1 l).1, some (t.invL (invChainNFO ts z lp).1 l).2)

/-- The accumulator of the `factor_out=False` reverse-order inversion
pass, with the tensor trajectory written via the plain `invChainNF`. -/
def inverseLogpAccNF {α L : Type} : List (FlowTransform α L) → Tensor4 α → L → L
  | [], _, l => l
  | t :: ts, z, l => (t.invL (invChainNF ts z) (inverseLogpAccNF ts z l)).2

/-- Model of `MMGbLcFlow.inverse` with `factor_out=False` and an optional
`logpz`: `return z if logpz is None else (z, logpz)`. -/
def mmflowInverseONF {α L : Type} (ts : List (FlowTransform α L))
    (dims : List (Nat × Nat × Nat)) (z : List α) (logpz : Option L) : FlowInvOut α L :=
  match (invChainNFO ts (viewLastDim dims z) logpz).2 with
  | none => FlowInvOut.plain (invChainNFO ts (viewLastDim dims z) logpz).1
  | some l => FlowInvOut.withLogp (invChainNFO ts (viewLastDim dims z) logpz).1 l

/-! ## Basic lemmas about the tensor operations -/

theorem forwardOuts_nil {α L : Type} (x : Tensor4 α) :
    forwardOuts ([] : List (FlowTransform α L)) x = [x] := rfl

theorem forwardOuts_single {α L : Type} (t : FlowTransform α L) (x : Tensor4 α) :
    forwardOuts [t] x = [t.fwd x] := rfl

theorem forwardOuts_cons {α L : Type} (t ta : FlowTransform α L)
    (ts : List (FlowTransform α L)) (x : Tensor4 α) :
    forwardOuts (t :: ta :: ts) x
      = chanDrop ((t.fwd x).c / 2) (t.fwd x)
          :: forwardOuts (ta :: ts) (chanTake ((t.fwd x).c / 2) (t.fwd x)) := rfl

theorem forwardOuts_ne_nil {α L : Type} (ts : List (FlowTransform α L)) (x : Tensor4 α) :
    forwardOuts ts x ≠ [] := by
  cases ts with
  | nil => simp [forwardOuts]
  | cons t ts =>
    cases ts with
    | nil => simp [forwardOuts_single]
    | cons ta ts => simp [forwardOuts_cons]

theorem chanTake_shape {α : Type} (d : Nat) (t : Tensor4 α) :
    (chanTake d t).shape = (d, t.h, t.w) := rfl

theorem chanDrop_shape {α : Type} (d : Nat) (t : Tensor4 α) :
    (chanDrop d t).shape = (t.c - d, t.h, t.w) := rfl

theorem chanTake_wf {α : Type} {d : Nat} {t : Tensor4 α}
    (hd : d ≤ t.c) (hw : t.wf) : (chanTake d t).wf := by
  unfold Tensor4.wf Tensor4.numel at hw ⊢
  unfold chanTake
  simp only [List.length_take, hw]
  have : d * t.h * t.w ≤ t.c * t.h * t.w := by
    exact Nat.mul_le_mul_right _ (Nat.mul_le_mul_right _ hd)
  omega

theorem chanDrop_wf {α : Type} {d : Nat} {t : Tensor4 α} (hw : t.wf) :
    (chanDrop d t).wf := by
  unfold Tensor4.wf Tensor4.numel at hw ⊢
  unfold chanDrop
  simp only [List.length_drop, hw]
  rw [Nat.sub_mul, Nat.sub_mul]

theorem chanCat_take_drop {α : Type} {d : Nat} {t : Tensor4 α} (hd : d ≤ t.c) :
    chanCat (chanTake d t) (chanDrop d t) = t := by
  cases t with
  | mk c h w data =>
    unfold chanCat chanTake chanDrop
    simp only [Tensor4.mk.injEq, List.take_append_drop, and_true, true_and]
    have hd' : d ≤ c := hd
    omega

/-! ## Claim C5: the scale-count ValueError in MMGbLcFlow.__init__ -/

theorem calcNScale_eq_zero_iff (h w : Nat) :
    calcNScale h w = 0 ↔ (h < 4 ∨ w < 4) := by
  rw [calcNScale]
  split_ifs with hc
  · simp only [Nat.succ_ne_zero, false_iff]
    omega
  · simp only [true_iff]
    omega

/-- Claim C5: the constructor of `MMGbLcFlow` raises its `ValueError` if and
only if `min(len(n_blocks), calc_n_scale(input_size))` is not positive,
which happens exactly when `h < 4`, or `w < 4`, or `n_blocks` is empty. -/
theorem mmflow_init_raises_iff (nBlocks : List Nat) (n c h w : Nat) :
    (mmflowInitRaises nBlocks (n, c, h, w) = true
        ↔ ¬ 0 < mmflowNScale nBlocks (n, c, h, w))
    ∧ (mmflowInitRaises nBlocks (n, c, h, w) = true
        ↔ (h < 4 ∨ w < 4 ∨ nBlocks = [])) := by
  constructor
  · simp [mmflowInitRaises]
  · rw [show (mmflowInitRaises nBlocks (n, c, h, w) = true)
        ↔ mmflowNScale nBlocks (n, c, h, w) = 0 by
      simp [mmflowInitRaises, Nat.pos_iff_ne_zero]]
    rw [show mmflowNScale nBlocks (n, c, h, w) = 0
        ↔ (nBlocks.length = 0 ∨ calcNScale h w = 0) from Nat.min_eq_zero_iff]
    rw [calcNScale_eq_zero_iff, List.length_eq_zero]
    tauto

/-! ## Claim C6: the constructor assertions of MMGbLc -/

/-- Claim C6: the `MMGbLc` constructor assertions pass exactly when
`len(depths) == len(channels)` and `global_pool` is `"avg"` or `"max"`;
equivalently, an `AssertionError` is raised whenever the lengths differ or
the pooling mode is anything else. -/
theorem mmgblc_init_asserts_iff (depths channels : List Nat) (global_pool : String) :
    mmgblcInitOk depths channels global_pool = true
      ↔ (depths.length = channels.length
          ∧ (global_pool = "avg" ∨ global_pool = "max")) := by
  simp [mmgblcInitOk]

/-! ## Claim C7: the block list built by MMGbLcStage -/

/-- Claim C7: `MMGbLcStage` builds exactly `depth` blocks; the block at
index 0 has `downscale=True` and input channel count `in_channels`, and
every block at a positive index maps `out_channels` to `out_channels`
without downscaling. -/
theorem mmgblc_stage_blocks_spec (depth in_channels out_channels : Nat) :
    (mmgblcStageBlocks depth in_channels out_channels).length = depth
    ∧ ∀ i, i < depth →
        (mmgblcStageBlocks depth in_channels out_channels).get? i
          = some ⟨if i = 0 then in_channels else out_channels, out_channels, i == 0⟩ := by
  constructor
  · simp [mmgblcStageBlocks]
  · intro i hi
    simp [mmgblcStageBlocks, List.getElem?_range, hi]

theorem mmgblc_stage_blocks_witness :
    (mmgblcStageBlocks 3 2 5).length = 3
    ∧ (mmgblcStageBlocks 3 2 5).get? 0 = some ⟨2, 5, true⟩
    ∧ (mmgblcStageBlocks 3 2 5).get? 1 = some ⟨5, 5, false⟩ := by
  refine ⟨(mmgblc_stage_blocks_spec 3 2 5).1, ?_, ?_⟩
  · simpa using (mmgblc_stage_blocks_spec 3 2 5).2 0 (by decide)
  · simpa using (mmgblc_stage_blocks_spec 3 2 5).2 1 (by decide)

/-! ## Claim C8: the composition order inside MMGbLcBlock.forward -/

/-- Claim C8: `MMGbLcBlock.forward` applies exactly the MBConv block, then
the windowed (block) attention pass, then the grid attention pass, in this
fixed order. -/
theorem mmgblcblock_forward_order {α : Type} (b : MMGbLcBlockModel α) (input : α) :
    MMGbLcBlockModel.forward b input
      = b.grid_transformer (b.block_transformer (b.mb_conv input)) := rfl

/-! ## Claim C9: MMGbLc.reset_classifier and the missing num_features -/

/-- Claim C9: since no method of `MMGbLc` ever assigns `self.num_features`,
`reset_classifier` with `num_classes > 0` always fails with an
`AttributeError`, while with `num_classes <= 0` it succeeds and installs an
identity head. -/
theorem mmgblc_reset_classifier_spec (num_classes : Int) :
    (0 < num_classes →
      reset_classifier mmgblcNumFeatures num_classes
        = Except.error "AttributeError: num_features")
    ∧ (num_classes ≤ 0 →
      reset_classifier mmgblcNumFeatures num_classes = Except.ok HeadModel.identity) := by
  constructor
  · intro hpos
    simp [reset_classifier, mmgblcNumFeatures, hpos]
  · intro hle
    simp [reset_classifier, show ¬ (0 : Int) < num_classes by omega]

theorem mmgblc_reset_classifier_witness :
    reset_classifier mmgblcNumFeatures 5 = Except.error "AttributeError: num_features"
    ∧ reset_classifier mmgblcNumFeatures 0 = Except.ok HeadModel.identity :=
  ⟨(mmgblc_reset_classifier_spec 5).1 (by decide),
    (mmgblc_reset_classifier_spec 0).2 (by decide)⟩

/-! ## Claim C1: the forward/inverse round trip of MMGbLcFlow -/

theorem mmflowDims_true_one (n c h w : Nat) :
    mmflowDims true 1 (n, c, h, w) = [(c, h, w)] := rfl

theorem mmflowDims_true_step (m n c h w : Nat) :
    mmflowDims true (m + 2) (n, c, h, w)
      = (c * 2, h / 2, w / 2) :: mmflowDims true (m + 1) (n, c * 2, h / 2, w / 2) := rfl

theorem mmflowDims_false_eq (k n c h w : Nat) :
    mmflowDims false k (n, c, h, w)
      = [(c * 4 ^ (k - 1), h / 2 ^ (k - 1), w / 2 ^ (k - 1))] := rfl

/-- Along the `factor_out=True` forward pass, the shapes of the collected
`out` tensors are exactly the entries of `self.dims`, and every collected
tensor is well-formed. -/
theorem forwardOuts_spec {α L : Type} (ts : List (FlowTransform α L)) :
    ∀ (c h w n : Nat) (x : Tensor4 α), ts ≠ [] →
      SqueezeShapes ts (c, h, w) → x.shape = (c, h, w) → x.wf →
      (forwardOuts ts x).map Tensor4.shape = mmflowDims true ts.length (n, c, h, w)
        ∧ ∀ o ∈ forwardOuts ts x, o.wf := by
  induction ts with
  | nil => intro c h w n x hne _ _ _; exact absurd rfl hne
  | cons t ts ih =>
    intro c h w n x _ hss hx hwf
    cases ts with
    | nil =>
      have hbase : ∀ u : Tensor4 α, u.shape = (c, h, w) → u.wf →
          (t.fwd u).shape = (c, h, w) ∧ (t.fwd u).wf := hss
      obtain ⟨hsh, hwfy⟩ := hbase x hx hwf
      refine ⟨?_, ?_⟩
      · rw [forwardOuts_single, List.map_cons, List.map_nil, hsh]
        rfl
      · intro o ho
        rw [forwardOuts_single] at ho
        simp only [List.mem_singleton] at ho
        subst ho
        exact hwfy
    | cons ta ts' =>
      obtain ⟨hstep, hrest⟩ : (∀ u : Tensor4 α, u.shape = (c, h, w) → u.wf →
          (t.fwd u).shape = (c * 4, h / 2, w / 2) ∧ (t.fwd u).wf)
          ∧ SqueezeShapes (ta :: ts') (c * 2, h / 2, w / 2) := hss
      obtain ⟨hysh, hywf⟩ := hstep x hx hwf
      have hy : (t.fwd x).c = c * 4 ∧ (t.fwd x).h = h / 2 ∧ (t.fwd x).w = w / 2 := by
        simpa [Tensor4.shape, Prod.ext_iff] using hysh
      obtain ⟨hyc, hyh, hyw⟩ := hy
      have hd : (t.fwd x).c / 2 = c * 2 := by omega
      have hdle : (t.fwd x).c / 2 ≤ (t.fwd x).c := Nat.div_le_self _ _
      have hdropsh : (chanDrop ((t.fwd x).c / 2) (t.fwd x)).shape = (c * 2, h / 2, w / 2) := by
        rw [chanDrop_shape, hyh, hyw]
        simp only [Prod.mk.injEq, and_true, true_and]
        omega
      have htakesh : (chanTake ((t.fwd x).c / 2) (t.fwd x)).shape = (c * 2, h / 2, w / 2) := by
        rw [chanTake_shape, hd, hyh, hyw]
      have hdropwf := chanDrop_wf (d := (t.fwd x).c / 2) hywf
      have htakewf := chanTake_wf hdle hywf
      obtain ⟨ihsh, ihwf⟩ :=
        ih (c * 2) (h / 2) (w / 2) n (chanTake ((t.fwd x).c / 2) (t.fwd x))
          (List.cons_ne_nil _ _) hrest htakesh htakewf
      refine ⟨?_, ?_⟩
      · rw [forwardOuts_cons, List.map_cons, hdropsh]
        have hlen : (t :: ta :: ts').length = ts'.length + 2 := by simp
        have hlen' : (ta :: ts').length = ts'.length + 1 := by simp
        rw [hlen, mmflowDims_true_step, ← hlen', ihsh]
      · intro o ho
        rw [forwardOuts_cons] at ho
        rcases List.mem_cons.mp ho with ho | ho
        · subst ho; exact hdropwf
        · exact ihwf o ho

/-- Cutting the flattened concatenation of a list of well-formed tensors
along their own shapes recovers exactly those tensors. -/
theorem splitByDims_shapes_flatten {α : Type} :
    ∀ outs : List (Tensor4 α), (∀ o ∈ outs, o.wf) →
      splitByDims (outs.map Tensor4.shape) ((outs.map Tensor4.data).flatten) = outs := by
  intro outs
  induction outs with
  | nil => intro _; rfl
  | cons o os ih =>
    intro hwf
    have ho : o.data.length = o.shape.1 * o.shape.2.1 * o.shape.2.2 := hwf o (by simp)
    show splitByDims (o.shape :: os.map Tensor4.shape)
        (o.data ++ (os.map Tensor4.data).flatten) = o :: os
    rw [splitByDims, ← ho, List.take_left, List.drop_left]
    rw [ih (fun o' ho' => hwf o' (List.mem_cons_of_mem _ ho'))]
    rcases o with ⟨oc, oh, ow, od⟩
    rfl

/-- The inversion loop applied to the `out` list of the forward pass
recovers the input, assuming each transform's inverse undoes its forward
at the encountered inputs. -/
theorem inverseAux_forwardOuts {α L : Type} :
    ∀ (ts : List (FlowTransform α L)) (x : Tensor4 α), ts ≠ [] → LeftInvOn ts x →
      inverseAux ts (forwardOuts ts x) = x := by
  intro ts
  induction ts with
  | nil => intro x h _; exact absurd rfl h
  | cons t ts ih =>
    intro x _ hli
    cases ts with
    | nil =>
      have h1 : t.inv (t.fwd x) = x := hli
      rw [forwardOuts_single]
      exact h1
    | cons ta ts' =>
      obtain ⟨h1, hrest⟩ : t.inv (t.fwd x) = x
          ∧ LeftInvOn (ta :: ts') (chanTake ((t.fwd x).c / 2) (t.fwd x)) := hli
      rw [forwardOuts_cons]
      rcases hfo : forwardOuts (ta :: ts') (chanTake ((t.fwd x).c / 2) (t.fwd x))
        with _ | ⟨o, os⟩
      · exact absurd hfo (forwardOuts_ne_nil _ _)
      · show t.inv (chanCat (inverseAux (ta :: ts') (o :: os))
            (chanDrop ((t.fwd x).c / 2) (t.fwd x))) = x
        rw [← hfo, ih (chanTake ((t.fwd x).c / 2) (t.fwd x)) (List.cons_ne_nil _ _) hrest,
          chanCat_take_drop (Nat.div_le_self _ _), h1]

/-- Shape of the surviving tensor of the `factor_out=False` forward pass. -/
theorem foldl_fwd_shape {α L : Type} :
    ∀ (ts : List (FlowTransform α L)) (c h w : Nat) (x : Tensor4 α), ts ≠ [] →
      SqueezeShapesNF ts (c, h, w) → x.shape = (c, h, w) → x.wf →
      (ts.foldl (fun a t => t.fwd a) x).shape
        = (c * 4 ^ (ts.length - 1), h / 2 ^ (ts.length - 1), w / 2 ^ (ts.length - 1)) := by
  intro ts
  induction ts with
  | nil => intro c h w x hne _ _ _; exact absurd rfl hne
  | cons t ts ih =>
    intro c h w x _ hss hx hwf
    cases ts with
    | nil =>
      have hbase : ∀ u : Tensor4 α, u.shape = (c, h, w) → u.wf →
          (t.fwd u).shape = (c, h, w) ∧ (t.fwd u).wf := hss
      have := (hbase x hx hwf).1
      simpa using this
    | cons ta ts' =>
      obtain ⟨hstep, hrest⟩ : (∀ u : Tensor4 α, u.shape = (c, h, w) → u.wf →
          (t.fwd u).shape = (c * 4, h / 2, w / 2) ∧ (t.fwd u).wf)
          ∧ SqueezeShapesNF (ta :: ts') (c * 4, h / 2, w / 2) := hss
      obtain ⟨hysh, hywf⟩ := hstep x hx hwf
      have hih := ih (c * 4) (h / 2) (w / 2) (t.fwd x) (List.cons_ne_nil _ _) hrest hysh hywf
      simp only [List.length_cons, Nat.add_sub_cancel] at hih ⊢
      rw [List.foldl_cons, hih]
      have e1 : c * 4 * 4 ^ ts'.length = c * 4 ^ (ts'.length + 1) := by
        rw [pow_succ]; ring
      have e2 : h / 2 / 2 ^ ts'.length = h / 2 ^ (ts'.length + 1) := by
        rw [Nat.div_div_eq_div_mul, pow_succ]; ring_nf
      have e3 : w / 2 / 2 ^ ts'.length = w / 2 ^ (ts'.length + 1) := by
        rw [Nat.div_div_eq_div_mul, pow_succ]; ring_nf
      rw [e1, e2, e3]

/-- Reverse-order inversion undoes the `factor_out=False` forward fold. -/
theorem invChainNF_foldl {α L : Type} :
    ∀ (ts : List (FlowTransform α L)) (x : Tensor4 α), LeftInvChainNF ts x →
      invChainNF ts (ts.foldl (fun a t => t.fwd a) x) = x := by
  intro ts
  induction ts with
  | nil => intro x _; rfl
  | cons t ts ih =>
    intro x hli
    obtain ⟨h1, hrest⟩ : t.inv (t.fwd x) = x ∧ LeftInvChainNF ts (t.fwd x) := hli
    rw [List.foldl_cons]
    show t.inv (invChainNF ts (ts.foldl (fun a t => t.fwd a) (t.fwd x))) = x
    rw [ih (t.fwd x) hrest, h1]

/-- Claim C1: for every `MMGbLcFlow` instance and every input tensor whose
shape matches the configured input size, if each per-scale transform's
`inverse` is a left inverse of its `forward` (at the encountered inputs)
and the transforms have the squeeze geometry that `_build_net` gives them,
then `inverse(forward(x))` returns `x`.  The first conjunct is the
`factor_out=True` path described by the claim (forward collects the
factored-out channel halves, inverse re-splits the flattened output
according to `self.dims`, inverts the last transform and walks the earlier
scales in reverse index order, re-concatenating each stored latent);
the second conjunct covers the `factor_out=False` path. -/
theorem mmflow_forward_inverse_roundtrip {α L : Type}
    (ts : List (FlowTransform α L)) (n c h w : Nat) (x : Tensor4 α)
    (hne : ts ≠ []) (hx : x.shape = (c, h, w)) (hwf : x.wf) :
    (SqueezeShapes ts (c, h, w) → LeftInvOn ts x →
      mmflowInverse ts (mmflowDims true ts.length (n, c, h, w)) (mmflowForward ts x) = x)
    ∧ (SqueezeShapesNF ts (c, h, w) → LeftInvChainNF ts x →
      mmflowInverseNF ts (mmflowDims false ts.length (n, c, h, w)) (mmflowForwardNF ts x)
        = x) := by
  constructor
  · intro hss hli
    obtain ⟨hshapes, hwfall⟩ := forwardOuts_spec ts c h w n x hne hss hx hwf
    rw [mmflowInverse, mmflowForward, ← hshapes, splitByDims_shapes_flatten _ hwfall]
    exact inverseAux_forwardOuts ts x hne hli
  · intro hss hli
    have hsh := foldl_fwd_shape ts c h w x hne hss hx hwf
    rw [mmflowInverseNF, mmflowForwardNF, mmflowDims_false_eq]
    have hlast : ([(c * 4 ^ (ts.length - 1), h / 2 ^ (ts.length - 1),
        w / 2 ^ (ts.length - 1))] : List (Nat × Nat × Nat)).getLastD (0, 0, 0)
        = (c * 4 ^ (ts.length - 1), h / 2 ^ (ts.length - 1), w / 2 ^ (ts.length - 1)) := rfl
    rw [hlast]
    have hview : (⟨c * 4 ^ (ts.length - 1), h / 2 ^ (ts.length - 1), w / 2 ^ (ts.length - 1),
        (ts.foldl (fun a t => t.fwd a) x).data⟩ : Tensor4 α)
        = ts.foldl (fun a t => t.fwd a) x := by
      rcases hres : ts.foldl (fun a t => t.fwd a) x with ⟨fc, fh, fw, fdata⟩
      rw [hres] at hsh
      have : fc = c * 4 ^ (ts.length - 1) ∧ fh = h / 2 ^ (ts.length - 1)
          ∧ fw = w / 2 ^ (ts.length - 1) := by
        simpa [Tensor4.shape, Prod.ext_iff] using hsh
      obtain ⟨e1, e2, e3⟩ := this
      subst e1
      subst e2
      subst e3
      rw [hres]
    rw [hview]
    exact invChainNF_foldl ts x hli

theorem mmflow_roundtrip_witness :
    mmflowInverse
        ([⟨fun t => ⟨t.c * 4, t.h / 2, t.w / 2, t.data⟩,
            fun t => ⟨t.c / 4, t.h * 2, t.w * 2, t.data⟩,
            fun t l => (t, l), fun t l => (t, l)⟩,
          ⟨fun t => t, fun t => t, fun t l => (t, l), fun t l => (t, l)⟩]
          : List (FlowTransform Nat Nat))
        (mmflowDims true 2 (1, 1, 4, 4))
        (mmflowForward
          ([⟨fun t => ⟨t.c * 4, t.h / 2, t.w / 2, t.data⟩,
              fun t => ⟨t.c / 4, t.h * 2, t.w * 2, t.data⟩,
              fun t l => (t, l), fun t l => (t, l)⟩,
            ⟨fun t => t, fun t => t, fun t l => (t, l), fun t l => (t, l)⟩]
            : List (FlowTransform Nat Nat))
          ⟨1, 4, 4, List.replicate 16 0⟩)
      = ⟨1, 4, 4, List.replicate 16 0⟩ := by
  have hround :=
    (mmflow_forward_inverse_roundtrip
      ([⟨fun t => ⟨t.c * 4, t.h / 2, t.w / 2, t.data⟩,
          fun t => ⟨t.c / 4, t.h * 2, t.w * 2, t.data⟩,
          fun t l => (t, l), fun t l => (t, l)⟩,
        ⟨fun t => t, fun t => t, fun t l => (t, l), fun t l => (t, l)⟩]
        : List (FlowTransform Nat Nat))
      1 1 4 4 ⟨1, 4, 4, List.replicate 16 0⟩
      (List.cons_ne_nil _ _) rfl (by simp [Tensor4.wf, Tensor4.numel])).1
  exact hround
    (by
      refine ⟨?_, ?_⟩
      · intro u hu hw
        have hu' : u.c = 1 ∧ u.h = 4 ∧ u.w = 4 := by
          simpa [Tensor4.shape, Prod.ext_iff] using hu
        refine ⟨?_, ?_⟩
        · simp [Tensor4.shape, hu'.1, hu'.2.1, hu'.2.2]
        · unfold Tensor4.wf Tensor4.numel at hw ⊢
          simp [hu'.1, hu'.2.1, hu'.2.2] at hw ⊢
          omega
      · intro u hu hw
        exact ⟨hu, hw⟩)
    ⟨rfl, rfl⟩

/-! ## Claim C2: the factor-out behaviour across scales -/

theorem cosSizes_step (m n c h w : Nat) :
    cosSizes (m + 2) (n, c, h, w)
      = (n, c * 2, h / 2, w / 2) :: cosSizes (m + 1) (n, c * 2, h / 2, w / 2) := rfl

/-- Closed form of the `factor_out=True` branch of `calc_output_size`. -/
theorem cosSizes_closed : ∀ (m : Nat) (n c h w : Nat),
    cosSizes (m + 1) (n, c, h, w)
      = (List.range m).map
          (fun i => (n, c * 2 ^ (i + 1), h / 2 ^ (i + 1), w / 2 ^ (i + 1)))
        ++ [(n, c * 2 ^ m, h / 2 ^ m, w / 2 ^ m)] := by
  intro m
  induction m with
  | zero =>
    intro n c h w
    simp [cosSizes]
  | succ m ih =>
    intro n c h w
    have harith : ∀ j : Nat, (n, c * 2 * 2 ^ j, h / 2 / 2 ^ j, w / 2 / 2 ^ j)
        = (n, c * 2 ^ (j + 1), h / 2 ^ (j + 1), w / 2 ^ (j + 1)) := by
      intro j
      have hc : c * 2 * 2 ^ j = c * 2 ^ (j + 1) := by
        rw [pow_succ]
        ring
      have hh : h / 2 / 2 ^ j = h / 2 ^ (j + 1) := by
        rw [Nat.div_div_eq_div_mul, ← pow_succ']
      have hw : w / 2 / 2 ^ j = w / 2 ^ (j + 1) := by
        rw [Nat.div_div_eq_div_mul, ← pow_succ']
      rw [hc, hh, hw]
    rw [show m + 1 + 1 = m + 2 from rfl, cosSizes_step, ih, List.range_succ_eq_map]
    simp only [List.map_cons, List.map_map, List.cons_append]
    simp [Function.comp, harith]

/-- Closed form of the per-scale shape list `self.dims` (`factor_out=True`). -/
theorem mmflowDims_true_closed (m n c h w : Nat) :
    mmflowDims true (m + 1) (n, c, h, w)
      = (List.range m).map (fun i => (c * 2 ^ (i + 1), h / 2 ^ (i + 1), w / 2 ^ (i + 1)))
        ++ [(c * 2 ^ m, h / 2 ^ m, w / 2 ^ m)] := by
  rw [show mmflowDims true (m + 1) (n, c, h, w)
      = (cosSizes (m + 1) (n, c, h, w)).map (fun s => (s.2.1, s.2.2.1, s.2.2.2)) from rfl,
    cosSizes_closed]
  simp only [List.map_append, List.map_map, List.map_cons, List.map_nil]
  rfl

/-- Claim C2 (counterexample): a flow with a single transform group factors
out nothing at all, so the factor-out does not happen at each scale: the
number of latent outputs is 0, not the scale count 1. -/
theorem mmflow_factor_out_counterexample :
    ¬ ((mmflowLatents
          ([⟨fun t => t, fun t => t, fun t l => (t, l), fun t l => (t, l)⟩]
            : List (FlowTransform Nat Nat))
          ⟨1, 4, 4, List.replicate 16 0⟩).length
        = ([⟨fun t => t, fun t => t, fun t l => (t, l), fun t l => (t, l)⟩]
            : List (FlowTransform Nat Nat)).length) := by
  simp [mmflowLatents, forwardOuts_single]

/-- Claim C2 (amended): with `factor_out=True`, every transform group
EXCEPT the last factors out half of its (post-squeeze) channels as a
latent output, and this happens after the group's squeeze has halved the
spatial resolution: the flow emits exactly `n_scale - 1` latents, and the
latent of scale `i` has shape `(c*2^(i+1), h//2^(i+1), w//2^(i+1))` --
precisely half of the `c*2^(i+2)` channels that scale's squeeze produced,
at the already-halved spatial size. -/
theorem mmflow_factor_out_latents {α L : Type}
    (ts : List (FlowTransform α L)) (c h w : Nat) (x : Tensor4 α)
    (hne : ts ≠ []) (hx : x.shape = (c, h, w)) (hwf : x.wf)
    (hss : SqueezeShapes ts (c, h, w)) :
    (mmflowLatents ts x).length = ts.length - 1
    ∧ (mmflowLatents ts x).map Tensor4.shape
        = (List.range (ts.length - 1)).map
            (fun i => (c * 2 ^ (i + 1), h / 2 ^ (i + 1), w / 2 ^ (i + 1))) := by
  obtain ⟨hshapes, _⟩ := forwardOuts_spec ts c h w 0 x hne hss hx hwf
  have hpos : 0 < ts.length := List.length_pos.mpr hne
  obtain ⟨m, hm⟩ : ∃ m, ts.length = m + 1 := ⟨ts.length - 1, by omega⟩
  have hm' : ts.length - 1 = m := by omega
  have hmap : (mmflowLatents ts x).map Tensor4.shape
      = (List.range m).map
          (fun i => (c * 2 ^ (i + 1), h / 2 ^ (i + 1), w / 2 ^ (i + 1))) := by
    rw [mmflowLatents, List.map_dropLast, hshapes, hm, mmflowDims_true_closed,
      List.dropLast_concat]
  refine ⟨?_, by rw [hm', hmap]⟩
  have hlen := congrArg List.length hmap
  simp only [List.length_map, List.length_range] at hlen
  rw [mmflowLatents] at hlen ⊢
  rw [hlen, hm']

theorem mmflow_factor_out_latents_witness :
    (mmflowLatents
        ([⟨fun t => ⟨t.c * 4, t.h / 2, t.w / 2, t.data⟩,
            fun t => ⟨t.c / 4, t.h * 2, t.w * 2, t.data⟩,
            fun t l => (t, l), fun t l => (t, l)⟩,
          ⟨fun t => t, fun t => t, fun t l => (t, l), fun t l => (t, l)⟩]
          : List (FlowTransform Nat Nat))
        ⟨1, 4, 4, List.replicate 16 0⟩).length = 1
    ∧ (mmflowLatents
        ([⟨fun t => ⟨t.c * 4, t.h / 2, t.w / 2, t.data⟩,
            fun t => ⟨t.c / 4, t.h * 2, t.w * 2, t.data⟩,
            fun t l => (t, l), fun t l => (t, l)⟩,
          ⟨fun t => t, fun t => t, fun t l => (t, l), fun t l => (t, l)⟩]
          : List (FlowTransform Nat Nat))
        ⟨1, 4, 4, List.replicate 16 0⟩).map Tensor4.shape = [(2, 2, 2)] := by
  have hth :=
    mmflow_factor_out_latents
      ([⟨fun t => ⟨t.c * 4, t.h / 2, t.w / 2, t.data⟩,
          fun t => ⟨t.c / 4, t.h * 2, t.w * 2, t.data⟩,
          fun t l => (t, l), fun t l => (t, l)⟩,
        ⟨fun t => t, fun t => t, fun t l => (t, l), fun t l => (t, l)⟩]
        : List (FlowTransform Nat Nat))
      1 4 4 ⟨1, 4, 4, List.replicate 16 0⟩
      (List.cons_ne_nil _ _) rfl (by simp [Tensor4.wf, Tensor4.numel])
      (by
        refine ⟨?_, ?_⟩
        · intro u hu hw
          have hu' : u.c = 1 ∧ u.h = 4 ∧ u.w = 4 := by
            simpa [Tensor4.shape, Prod.ext_iff] using hu
          refine ⟨?_, ?_⟩
          · simp [Tensor4.shape, hu'.1, hu'.2.1, hu'.2.2]
          · unfold Tensor4.wf Tensor4.numel at hw ⊢
            simp [hu'.1, hu'.2.1, hu'.2.2] at hw ⊢
            omega
        · intro u hu hw
          exact ⟨hu, hw⟩)
  refine ⟨?_, ?_⟩
  · simpa using hth.1
  · have h2 := hth.2
    simpa using h2

/-! ## Claim C3: calc_output_size and element-count conservation -/

/-- Geometric halving: when `2^m` divides `N`, the partial quotients
`N/2, N/4, ..., N/2^m` together with one extra copy of `N/2^m` sum to
`N`. -/
theorem halvingSum (m : Nat) : ∀ N : Nat, 2 ^ m ∣ N →
    ((List.range m).map (fun j => N / 2 ^ (j + 1))).sum + N / 2 ^ m = N := by
  induction m with
  | zero =>
    intro N _
    simp
  | succ m ih =>
    intro N hN
    obtain ⟨q, rfl⟩ := hN
    have h2 : 2 ^ (m + 1) * q / 2 = 2 ^ m * q := by
      rw [pow_succ', mul_assoc]
      exact Nat.mul_div_cancel_left _ (by norm_num)
    have hih := ih (2 ^ m * q) (dvd_mul_right _ _)
    rw [List.range_succ_eq_map, List.map_cons, List.sum_cons, List.map_map]
    have hmap : (List.range m).map ((fun j => 2 ^ (m + 1) * q / 2 ^ (j + 1)) ∘ Nat.succ)
        = (List.range m).map (fun j => 2 ^ m * q / 2 ^ (j + 1)) := by
      apply List.map_congr_left
      intro j _
      show 2 ^ (m + 1) * q / 2 ^ (j + 1 + 1) = 2 ^ m * q / 2 ^ (j + 1)
      rw [← h2, Nat.div_div_eq_div_mul, ← pow_succ']
    rw [hmap]
    have hlast : 2 ^ (m + 1) * q / 2 ^ (m + 1) = 2 ^ m * q / 2 ^ m := by
      rw [Nat.mul_div_cancel_left _ (pow_pos (by norm_num : (0:Nat) < 2) (m + 1)),
        Nat.mul_div_cancel_left _ (pow_pos (by norm_num : (0:Nat) < 2) m)]
    have hf0 : 2 ^ (m + 1) * q / 2 ^ (0 + 1) = 2 ^ m * q := by
      rw [show (0 + 1 : Nat) = 1 from rfl, pow_one]
      exact h2
    rw [hf0, hlast]
    have hdouble : 2 ^ (m + 1) * q = 2 ^ m * q + 2 ^ m * q := by
      rw [pow_succ']
      ring
    omega

/-- A factored-out shape's element count is an exact power-of-two fraction
of the input element count. -/
theorem factor_term_eq (c h w j : Nat) (hh : 2 ^ j ∣ h) (hw : 2 ^ j ∣ w) :
    c * 2 ^ j * (h / 2 ^ j) * (w / 2 ^ j) = c * h * w / 2 ^ j := by
  have e2 : c * h * w / 2 ^ j = c * h * (w / 2 ^ j) := Nat.mul_div_assoc _ hw
  have e3 : c * 2 ^ j * (h / 2 ^ j) = c * h := by
    rw [mul_assoc, Nat.mul_div_cancel' hh]
  rw [e2, e3]

/-- The single `factor_out=False` output shape conserves the element
count. -/
theorem nf_count_eq (c h w m : Nat) (hh : 2 ^ m ∣ h) (hw : 2 ^ m ∣ w) :
    c * 4 ^ m * (h / 2 ^ m) * (w / 2 ^ m) = c * h * w := by
  have e1 : 2 ^ m * (h / 2 ^ m) = h := Nat.mul_div_cancel' hh
  have e2 : 2 ^ m * (w / 2 ^ m) = w := Nat.mul_div_cancel' hw
  have e4 : (4 : Nat) ^ m = 2 ^ m * 2 ^ m := by
    rw [show (4 : Nat) = 2 * 2 from rfl, mul_pow]
  calc c * 4 ^ m * (h / 2 ^ m) * (w / 2 ^ m)
      = c * (2 ^ m * (h / 2 ^ m)) * (2 ^ m * (w / 2 ^ m)) := by rw [e4]; ring
    _ = c * h * w := by rw [e1, e2]

/-- Claim C3: `calc_output_size` returns the single shape
`[n, c*4^(n_scale-1), h//2^(n_scale-1), w//2^(n_scale-1)]` when
`factor_out=False`; with `factor_out=True` it returns `n_scale` shapes,
shape `i` for `i < n_scale-1` being `(n, c*2^(i+1), h//2^(i+1), w//2^(i+1))`
and (when `n_scale >= 2`) the last shape equalling the second-to-last; and
when `h` and `w` are powers of two times the final sizes, the total element
count per sample over all returned shapes equals `c*h*w`, which is also
the flattened length of forward's concatenated output. -/
theorem calc_output_size_spec (n c h w k : Nat) (hk : 1 ≤ k) :
    calc_output_size false k (n, c, h, w)
        = [(n, c * 4 ^ (k - 1), h / 2 ^ (k - 1), w / 2 ^ (k - 1))]
    ∧ (calc_output_size true k (n, c, h, w)).length = k
    ∧ (∀ i, i + 1 < k →
        (calc_output_size true k (n, c, h, w))[i]?
          = some (n, c * 2 ^ (i + 1), h / 2 ^ (i + 1), w / 2 ^ (i + 1)))
    ∧ (2 ≤ k →
        (calc_output_size true k (n, c, h, w))[k - 1]?
          = (calc_output_size true k (n, c, h, w))[k - 2]?)
    ∧ (2 ^ (k - 1) ∣ h → 2 ^ (k - 1) ∣ w →
        ((calc_output_size true k (n, c, h, w)).map
            (fun s => s.2.1 * s.2.2.1 * s.2.2.2)).sum = c * h * w
        ∧ c * 4 ^ (k - 1) * (h / 2 ^ (k - 1)) * (w / 2 ^ (k - 1)) = c * h * w
        ∧ ∀ (α L : Type) (ts : List (FlowTransform α L)) (x : Tensor4 α),
            ts.length = k → SqueezeShapes ts (c, h, w) → x.shape = (c, h, w) → x.wf →
            (mmflowForward ts x).length = c * h * w) := by
  obtain ⟨m, rfl⟩ : ∃ m, k = m + 1 := ⟨k - 1, by omega⟩
  simp only [Nat.add_sub_cancel]
  have hcos : calc_output_size true (m + 1) (n, c, h, w)
      = cosSizes (m + 1) (n, c, h, w) := rfl
  refine ⟨rfl, ?_, ?_, ?_, ?_⟩
  · rw [hcos, cosSizes_closed]
    simp
  · intro i hi
    have hi' : i < m := by omega
    rw [hcos, cosSizes_closed, List.getElem?_append]
    simp [List.length_map, List.length_range, hi', List.getElem?_range]
  · intro h2
    have hidx : m + 1 - 2 = m - 1 := by omega
    rw [hcos, hidx, cosSizes_closed]
    have hlenA : ((List.range m).map
        (fun i => (n, c * 2 ^ (i + 1), h / 2 ^ (i + 1), w / 2 ^ (i + 1)))).length = m := by
      simp
    rw [List.getElem?_append_right (by rw [hlenA]), List.getElem?_append, hlenA,
      if_pos (by omega : m - 1 < m)]
    simp only [Nat.sub_self, List.getElem?_cons_zero, List.getElem?_map]
    rw [List.getElem?_range (by omega : m - 1 < m)]
    simp only [Option.map_some']
    have hm1 : m - 1 + 1 = m := by omega
    rw [hm1]
  · intro hh hw2
    have hsum : ((cosSizes (m + 1) (n, c, h, w)).map
        (fun s => s.2.1 * s.2.2.1 * s.2.2.2)).sum = c * h * w := by
      rw [cosSizes_closed, List.map_append, List.sum_append, List.map_map]
      simp only [List.map_cons, List.map_nil, List.sum_cons, List.sum_nil, add_zero]
      have hmapeq : (List.range m).map
          ((fun s : Nat × Nat × Nat × Nat => s.2.1 * s.2.2.1 * s.2.2.2)
            ∘ (fun i => (n, c * 2 ^ (i + 1), h / 2 ^ (i + 1), w / 2 ^ (i + 1))))
          = (List.range m).map (fun i => c * h * w / 2 ^ (i + 1)) := by
        apply List.map_congr_left
        intro i hi
        have hi' : i + 1 ≤ m := by
          have := List.mem_range.mp hi
          omega
        exact factor_term_eq c h w (i + 1) (dvd_trans (pow_dvd_pow 2 hi') hh)
          (dvd_trans (pow_dvd_pow 2 hi') hw2)
      rw [hmapeq, factor_term_eq c h w m hh hw2]
      exact halvingSum m (c * h * w) (Dvd.dvd.mul_left hw2 (c * h))
    refine ⟨hsum, nf_count_eq c h w m hh hw2, ?_⟩
    intro α L ts x hlen hss hx hwf
    have hne : ts ≠ [] := by
      intro hcon
      rw [hcon] at hlen
      simp at hlen
    obtain ⟨hshapes, hwfall⟩ := forwardOuts_spec ts c h w n x hne hss hx hwf
    rw [mmflowForward, List.length_flatten, List.map_map]
    have hcongr : (forwardOuts ts x).map (List.length ∘ Tensor4.data)
        = (forwardOuts ts x).map (fun o => o.shape.1 * o.shape.2.1 * o.shape.2.2) :=
      List.map_congr_left (fun o ho => hwfall o ho)
    have hcomp : (forwardOuts ts x).map (fun o => o.shape.1 * o.shape.2.1 * o.shape.2.2)
        = (mmflowDims true ts.length (n, c, h, w)).map (fun s => s.1 * s.2.1 * s.2.2) := by
      rw [← hshapes, List.map_map]
      exact List.map_congr_left (fun o _ => rfl)
    rw [hcongr, hcomp, hlen]
    rw [show mmflowDims true (m + 1) (n, c, h, w)
        = (cosSizes (m + 1) (n, c, h, w)).map (fun s => (s.2.1, s.2.2.1, s.2.2.2)) from rfl]
    rw [List.map_map]
    exact hsum

theorem calc_output_size_witness :
    calc_output_size false 2 (1, 3, 8, 8) = [(1, 12, 4, 4)]
    ∧ (calc_output_size true 2 (1, 3, 8, 8)).length = 2
    ∧ ((calc_output_size true 2 (1, 3, 8, 8)).map
        (fun s => s.2.1 * s.2.2.1 * s.2.2.2)).sum = 3 * 8 * 8 := by
  have hth := calc_output_size_spec 1 3 8 8 2 (by decide)
  refine ⟨?_, hth.2.1, (hth.2.2.2.2 (by decide) (by decide)).1⟩
  simpa using hth.1

/-! ## Claim C4: threading of the log-probability accumulator -/

/-- With `logpx=None`, the forward loop produces exactly the plain `out`
list and keeps the accumulator absent. -/
theorem forwardState_none {α L : Type} :
    ∀ (ts : List (FlowTransform α L)) (x : Tensor4 α),
      forwardState ts x (none : Option L) = (forwardOuts ts x, none) := by
  intro ts
  induction ts with
  | nil => intro x; rfl
  | cons t ts ih =>
    intro x
    cases ts with
    | nil => rfl
    | cons ta ts' =>
      show (chanDrop ((t.fwd x).c / 2) (t.fwd x)
          :: (forwardState (ta :: ts') (chanTake ((t.fwd x).c / 2) (t.fwd x)) none).1,
        (forwardState (ta :: ts') (chanTake ((t.fwd x).c / 2) (t.fwd x)) none).2)
        = (forwardOuts (t :: ta :: ts') x, none)
      rw [ih, forwardOuts_cons]

/-- With a non-None accumulator and transforms whose accumulator-threading
methods agree with the plain ones on the tensor component, the forward
loop produces the plain `out` list and the index-order-threaded
accumulator. -/
theorem forwardState_some {α L : Type} :
    ∀ (ts : List (FlowTransform α L)), (∀ t ∈ ts, ConsistentL t) →
      ∀ (x : Tensor4 α) (l : L),
      forwardState ts x (some l) = (forwardOuts ts x, some (forwardLogpAcc ts x l)) := by
  intro ts
  induction ts with
  | nil => intro _ x l; rfl
  | cons t ts ih =>
    intro hcons x l
    have hct : ConsistentL t := hcons t (by simp)
    have hcts : ∀ t' ∈ ts, ConsistentL t' :=
      fun t' ht' => hcons t' (List.mem_cons_of_mem _ ht')
    cases ts with
    | nil =>
      simp only [forwardState, forwardOuts_single, forwardLogpAcc]
      rw [hct.1 x l]
    | cons ta ts' =>
      show (chanDrop ((t.fwdL x l).1.c / 2) (t.fwdL x l).1
          :: (forwardState (ta :: ts')
              (chanTake ((t.fwdL x l).1.c / 2) (t.fwdL x l).1) (some (t.fwdL x l).2)).1,
        (forwardState (ta :: ts')
            (chanTake ((t.fwdL x l).1.c / 2) (t.fwdL x l).1) (some (t.fwdL x l).2)).2)
        = (forwardOuts (t :: ta :: ts') x, some (forwardLogpAcc (t :: ta :: ts') x l))
      rw [hct.1 x l, ih hcts, forwardOuts_cons]
      rw [show forwardLogpAcc (t :: ta :: ts') x l
          = forwardLogpAcc (ta :: ts')
              (chanTake ((t.fwd x).c / 2) (t.fwd x)) (t.fwdL x l).2 from rfl]

/-- The accumulator-threading inversion loop computes the plain inverted
tensor together with the reverse-index-order accumulator. -/
theorem inverseStateL_eq {α L : Type} :
    ∀ (ts : List (FlowTransform α L)), (∀ t ∈ ts, ConsistentL t) →
      ∀ (zs : List (Tensor4 α)) (l : L),
      inverseStateL ts zs l = (inverseAux ts zs, inverseLogpAcc ts zs l) := by
  intro ts
  induction ts with
  | nil => intro _ zs l; rfl
  | cons t ts ih =>
    intro hcons zs l
    have hct : ConsistentL t := hcons t (by simp)
    have hcts : ∀ t' ∈ ts, ConsistentL t' :=
      fun t' ht' => hcons t' (List.mem_cons_of_mem _ ht')
    cases ts with
    | nil =>
      cases zs with
      | nil => rfl
      | cons z zr =>
        show t.invL z l = (t.inv z, (t.invL z l).2)
        rw [← hct.2 z l]
    | cons ta ts' =>
      cases zs with
      | nil => rfl
      | cons z zr =>
        show (let r := inverseStateL (ta :: ts') zr l
            t.invL (chanCat r.1 z) r.2)
          = (t.inv (chanCat (inverseAux (ta :: ts') zr) z),
              (t.invL (chanCat (inverseAux (ta :: ts') zr) z)
                (inverseLogpAcc (ta :: ts') zr l)).2)
        rw [ih hcts zr l]
        rw [← hct.2 (chanCat (inverseAux (ta :: ts') zr) z) (inverseLogpAcc (ta :: ts') zr l)]

/-- With `logpx=None`, the `factor_out=False` forward loop produces the
plain fold of the transforms and keeps the accumulator absent. -/
theorem forwardStateNF_none {α L : Type} :
    ∀ (ts : List (FlowTransform α L)) (x : Tensor4 α),
      forwardStateNF ts x (none : Option L)
        = (ts.foldl (fun a t => t.fwd a) x, none) := by
  intro ts
  induction ts with
  | nil => intro x; rfl
  | cons t ts ih =>
    intro x
    show forwardStateNF ts (t.fwd x) none = _
    rw [ih, List.foldl_cons]

/-- With a non-None accumulator and consistent transforms, the
`factor_out=False` forward loop produces the plain fold and the
index-order-threaded accumulator. -/
theorem forwardStateNF_some {α L : Type} :
    ∀ (ts : List (FlowTransform α L)), (∀ t ∈ ts, ConsistentL t) →
      ∀ (x : Tensor4 α) (l : L),
      forwardStateNF ts x (some l)
        = (ts.foldl (fun a t => t.fwd a) x, some (forwardLogpAccNF ts x l)) := by
  intro ts
  induction ts with
  | nil => intro _ x l; rfl
  | cons t ts ih =>
    intro hcons x l
    have hct : ConsistentL t := hcons t (by simp)
    have hcts : ∀ t' ∈ ts, ConsistentL t' :=
      fun t' ht' => hcons t' (List.mem_cons_of_mem _ ht')
    show forwardStateNF ts (t.fwdL x l).1 (some (t.fwdL x l).2) = _
    rw [hct.1 x l, ih hcts, List.foldl_cons]
    rw [show forwardLogpAccNF (t :: ts) x l
        = forwardLogpAccNF ts (t.fwd x) (t.fwdL x l).2 from rfl]

/-- With `logpz=None`, the `factor_out=False` inversion loop computes the
plain reverse-order inversion and keeps the accumulator absent. -/
theorem invChainNFO_none {α L : Type} :
    ∀ (ts : List (FlowTransform α L)) (z : Tensor4 α),
      invChainNFO ts z (none : Option L) = (invChainNF ts z, none) := by
  intro ts
  induction ts with
  | nil => intro z; rfl
  | cons t ts ih =>
    intro z
    show (match (invChainNFO ts z none).2 with
      | none => (t.inv (invChainNFO ts z none).1, none)
      | some l =>
        ((t.invL (invChainNFO ts z none).1 l).1,
          some (t.invL (invChainNFO ts z none).1 l).2))
      = (invChainNF (t :: ts) z, none)
    rw [ih]
    rfl

/-- With a non-None accumulator and consistent transforms, the
`factor_out=False` inversion loop computes the plain inverted tensor and
the reverse-index-order accumulator. -/
theorem invChainNFO_some {α L : Type} :
    ∀ (ts : List (FlowTransform α L)), (∀ t ∈ ts, ConsistentL t) →
      ∀ (z : Tensor4 α) (l : L),
      invChainNFO ts z (some l)
        = (invChainNF ts z, some (inverseLogpAccNF ts z l)) := by
  intro ts
  induction ts with
  | nil => intro _ z l; rfl
  | cons t ts ih =>
    intro hcons z l
    have hct : ConsistentL t := hcons t (by simp)
    have hcts : ∀ t' ∈ ts, ConsistentL t' :=
      fun t' ht' => hcons t' (List.mem_cons_of_mem _ ht')
    show (match (invChainNFO ts z (some l)).2 with
      | none => (t.inv (invChainNFO ts z (some l)).1, none)
      | some la =>
        ((t.invL (invChainNFO ts z (some l)).1 la).1,
          some (t.invL (invChainNFO ts z (some l)).1 la).2))
      = (invChainNF (t :: ts) z, some (inverseLogpAccNF (t :: ts) z l))
    rw [ih hcts]
    show ((t.invL (invChainNF ts z) (inverseLogpAccNF ts z l)).1,
        some (t.invL (invChainNF ts z) (inverseLogpAccNF ts z l)).2)
      = (invChainNF (t :: ts) z, some (inverseLogpAccNF (t :: ts) z l))
    rw [hct.2 (invChainNF ts z) (inverseLogpAccNF ts z l)]
    rfl

/-- Claim C4: `forward` with a non-None `logpx` threads the accumulator
through every per-scale transform in index order and returns the pair
`(out, logpx)`, whereas with `logpx=None` only `out` is returned; and
symmetrically `inverse` threads a non-None `logpz` in reverse index order
(the last transform updates it first) and returns the pair `(z, logpz)`
exactly when `logpz` is not None.  The first four conjuncts are the
`factor_out=True` paths, the last four the `factor_out=False` paths
(source lines 462-469 for the inverse).  The hypothesis states that each
transform's accumulator-threading methods return the same tensor as the
plain ones. -/
theorem mmflow_logp_threading {α L : Type} (ts : List (FlowTransform α L)) (x : Tensor4 α)
    (dims : List (Nat × Nat × Nat)) (z : List α) (l0 : L)
    (hcons : ∀ t ∈ ts, ConsistentL t) :
    mmflowForwardO ts x none = FlowOut.plain (mmflowForward ts x)
    ∧ mmflowForwardO ts x (some l0)
        = FlowOut.withLogp (mmflowForward ts x) (forwardLogpAcc ts x l0)
    ∧ mmflowInverseO ts dims z none = FlowInvOut.plain (mmflowInverse ts dims z)
    ∧ mmflowInverseO ts dims z (some l0)
        = FlowInvOut.withLogp (mmflowInverse ts dims z)
            (inverseLogpAcc ts (splitByDims dims z) l0)
    ∧ mmflowForwardONF ts x none = FlowOut.plain (mmflowForwardNF ts x)
    ∧ mmflowForwardONF ts x (some l0)
        = FlowOut.withLogp (mmflowForwardNF ts x) (forwardLogpAccNF ts x l0)
    ∧ mmflowInverseONF ts dims z none = FlowInvOut.plain (mmflowInverseNF ts dims z)
    ∧ mmflowInverseONF ts dims z (some l0)
        = FlowInvOut.withLogp (mmflowInverseNF ts dims z)
            (inverseLogpAccNF ts (viewLastDim dims z) l0) := by
  refine ⟨?_, ?_, rfl, ?_, ?_, ?_, ?_, ?_⟩
  · rw [mmflowForwardO, forwardState_none]
    rfl
  · rw [mmflowForwardO, forwardState_some ts hcons x l0]
    rfl
  · show FlowInvOut.withLogp (inverseStateL ts (splitByDims dims z) l0).1
        (inverseStateL ts (splitByDims dims z) l0).2 = _
    rw [inverseStateL_eq ts hcons (splitByDims dims z) l0]
    rfl
  · rw [mmflowForwardONF, forwardStateNF_none]
    rfl
  · rw [mmflowForwardONF, forwardStateNF_some ts hcons x l0]
    rfl
  · rw [mmflowInverseONF, invChainNFO_none]
    rfl
  · rw [mmflowInverseONF, invChainNFO_some ts hcons (viewLastDim dims z) l0]
    rfl

theorem mmflow_logp_threading_witness :
    mmflowForwardO
        ([⟨fun t => ⟨t.c * 4, t.h / 2, t.w / 2, t.data⟩,
            fun t => t,
            fun t l => (⟨t.c * 4, t.h / 2, t.w / 2, t.data⟩, l + 1),
            fun t l => (t, l * 2)⟩,
          ⟨fun t => t, fun t => t, fun t l => (t, l + 10), fun t l => (t, l * 3)⟩]
          : List (FlowTransform Nat Nat))
        ⟨1, 4, 4, List.replicate 16 0⟩ (some 5)
      = FlowOut.withLogp
          (mmflowForward
            ([⟨fun t => ⟨t.c * 4, t.h / 2, t.w / 2, t.data⟩,
                fun t => t,
                fun t l => (⟨t.c * 4, t.h / 2, t.w / 2, t.data⟩, l + 1),
                fun t l => (t, l * 2)⟩,
              ⟨fun t => t, fun t => t, fun t l => (t, l + 10), fun t l => (t, l * 3)⟩]
              : List (FlowTransform Nat Nat))
            ⟨1, 4, 4, List.replicate 16 0⟩)
          (forwardLogpAcc
            ([⟨fun t => ⟨t.c * 4, t.h / 2, t.w / 2, t.data⟩,
                fun t => t,
                fun t l => (⟨t.c * 4, t.h / 2, t.w / 2, t.data⟩, l + 1),
                fun t l => (t, l * 2)⟩,
              ⟨fun t => t, fun t => t, fun t l => (t, l + 10), fun t l => (t, l * 3)⟩]
              : List (FlowTransform Nat Nat))
            ⟨1, 4, 4, List.replicate 16 0⟩ 5)
    ∧ mmflowInverseO
        ([⟨fun t => ⟨t.c * 4, t.h / 2, t.w / 2, t.data⟩,
            fun t => t,
            fun t l => (⟨t.c * 4, t.h / 2, t.w / 2, t.data⟩, l + 1),
            fun t l => (t, l * 2)⟩,
          ⟨fun t => t, fun t => t, fun t l => (t, l + 10), fun t l => (t, l * 3)⟩]
          : List (FlowTransform Nat Nat))
        [(2, 2, 2), (2, 2, 2)] (List.replicate 16 0) (some 5)
      = FlowInvOut.withLogp
          (mmflowInverse
            ([⟨fun t => ⟨t.c * 4, t.h / 2, t.w / 2, t.data⟩,
                fun t => t,
                fun t l => (⟨t.c * 4, t.h / 2, t.w / 2, t.data⟩, l + 1),
                fun t l => (t, l * 2)⟩,
              ⟨fun t => t, fun t => t, fun t l => (t, l + 10), fun t l => (t, l * 3)⟩]
              : List (FlowTransform Nat Nat))
            [(2, 2, 2), (2, 2, 2)] (List.replicate 16 0))
          (inverseLogpAcc
            ([⟨fun t => ⟨t.c * 4, t.h / 2, t.w / 2, t.data⟩,
                fun t => t,
                fun t l => (⟨t.c * 4, t.h / 2, t.w / 2, t.data⟩, l + 1),
                fun t l => (t, l * 2)⟩,
              ⟨fun t => t, fun t => t, fun t l => (t, l + 10), fun t l => (t, l * 3)⟩]
              : List (FlowTransform Nat Nat))
            (splitByDims [(2, 2, 2), (2, 2, 2)] (List.replicate 16 0)) 5)
    ∧ mmflowForwardONF
        ([⟨fun t => ⟨t.c * 4, t.h / 2, t.w / 2, t.data⟩,
            fun t => t,
            fun t l => (⟨t.c * 4, t.h / 2, t.w / 2, t.data⟩, l + 1),
            fun t l => (t, l * 2)⟩,
          ⟨fun t => t, fun t => t, fun t l => (t, l + 10), fun t l => (t, l * 3)⟩]
          : List (FlowTransform Nat Nat))
        ⟨1, 4, 4, List.replicate 16 0⟩ (some 5)
      = FlowOut.withLogp
          (mmflowForwardNF
            ([⟨fun t => ⟨t.c * 4, t.h / 2, t.w / 2, t.data⟩,
                fun t => t,
                fun t l => (⟨t.c * 4, t.h / 2, t.w / 2, t.data⟩, l + 1),
                fun t l => (t, l * 2)⟩,
              ⟨fun t => t, fun t => t, fun t l => (t, l + 10), fun t l => (t, l * 3)⟩]
              : List (FlowTransform Nat Nat))
            ⟨1, 4, 4, List.replicate 16 0⟩)
          (forwardLogpAccNF
            ([⟨fun t => ⟨t.c * 4, t.h / 2, t.w / 2, t.data⟩,
                fun t => t,
                fun t l => (⟨t.c * 4, t.h / 2, t.w / 2, t.data⟩, l + 1),
                fun t l => (t, l * 2)⟩,
              ⟨fun t => t, fun t => t, fun t l => (t, l + 10), fun t l => (t, l * 3)⟩]
              : List (FlowTransform Nat Nat))
            ⟨1, 4, 4, List.replicate 16 0⟩ 5)
    ∧ mmflowInverseONF
        ([⟨fun t => ⟨t.c * 4, t.h / 2, t.w / 2, t.data⟩,
            fun t => t,
            fun t l => (⟨t.c * 4, t.h / 2, t.w / 2, t.data⟩, l + 1),
            fun t l => (t, l * 2)⟩,
          ⟨fun t => t, fun t => t, fun t l => (t, l + 10), fun t l => (t, l * 3)⟩]
          : List (FlowTransform Nat Nat))
        [(2, 2, 2), (2, 2, 2)] (List.replicate 16 0) (some 5)
      = FlowInvOut.withLogp
          (mmflowInverseNF
            ([⟨fun t => ⟨t.c * 4, t.h / 2, t.w / 2, t.data⟩,
                fun t => t,
                fun t l => (⟨t.c * 4, t.h / 2, t.w / 2, t.data⟩, l + 1),
                fun t l => (t, l * 2)⟩,
              ⟨fun t => t, fun t => t, fun t l => (t, l + 10), fun t l => (t, l * 3)⟩]
              : List (FlowTransform Nat Nat))
            [(2, 2, 2), (2, 2, 2)] (List.replicate 16 0))
          (inverseLogpAccNF
            ([⟨fun t => ⟨t.c * 4, t.h / 2, t.w / 2, t.data⟩,
                fun t => t,
                fun t l => (⟨t.c * 4, t.h / 2, t.w / 2, t.data⟩, l + 1),
                fun t l => (t, l * 2)⟩,
              ⟨fun t => t, fun t => t, fun t l => (t, l + 10), fun t l => (t, l * 3)⟩]
              : List (FlowTransform Nat Nat))
            (viewLastDim [(2, 2, 2), (2, 2, 2)] (List.replicate 16 0)) 5) := by
  have hth :=
    mmflow_logp_threading
      ([⟨fun t => ⟨t.c * 4, t.h / 2, t.w / 2, t.data⟩,
          fun t => t,
          fun t l => (⟨t.c * 4, t.h / 2, t.w / 2, t.data⟩, l + 1),
          fun t l => (t, l * 2)⟩,
        ⟨fun t => t, fun t => t, fun t l => (t, l + 10), fun t l => (t, l * 3)⟩]
        : List (FlowTransform Nat Nat))
      ⟨1, 4, 4, List.replicate 16 0⟩ [(2, 2, 2), (2, 2, 2)] (List.replicate 16 0) 5
      (by
        intro t ht
        rcases List.mem_cons.mp ht with rfl | ht2
        · exact ⟨fun x l => rfl, fun z l => rfl⟩
        rcases List.mem_cons.mp ht2 with rfl | ht3
        · exact ⟨fun x l => rfl, fun z l => rfl⟩
        · exact absurd ht3 (List.not_mem_nil t))
  exact ⟨hth.2.1, hth.2.2.2.1, hth.2.2.2.2.2.1, hth.2.2.2.2.2.2.2⟩

/-! ## Claim C10: the classification head at the last scale -/

/-- Once the Python local `f` has been assigned, the classify-enabled
forward loop succeeds, and the classification inputs are the latents of
scales `0 .. k-2` followed by a repetition of the most recent latent. -/
theorem forwardClassify_some {α L : Type} :
    ∀ (ts : List (FlowTransform α L)) (x : Tensor4 α) (f : Tensor4 α), ts ≠ [] →
      ∃ outs : List (Tensor4 α), outs ≠ []
        ∧ forwardClassify ts x (some f)
            = Except.ok (outs, outs.dropLast
                ++ [(f :: outs.dropLast).getLastD ⟨0, 0, 0, []⟩]) := by
  intro ts
  induction ts with
  | nil => intro x f h; exact absurd rfl h
  | cons t ts ih =>
    intro x f _
    cases ts with
    | nil =>
      exact ⟨[t.fwd x], by simp, rfl⟩
    | cons ta ts' =>
      obtain ⟨outs', hne', heq⟩ := ih (chanTake ((t.fwd x).c / 2) (t.fwd x))
        (chanDrop ((t.fwd x).c / 2) (t.fwd x)) (List.cons_ne_nil _ _)
      refine ⟨chanDrop ((t.fwd x).c / 2) (t.fwd x) :: outs', by simp, ?_⟩
      show (match forwardClassify (ta :: ts') (chanTake ((t.fwd x).c / 2) (t.fwd x))
            (some (chanDrop ((t.fwd x).c / 2) (t.fwd x))) with
        | Except.ok r =>
          Except.ok (chanDrop ((t.fwd x).c / 2) (t.fwd x) :: r.1,
            chanDrop ((t.fwd x).c / 2) (t.fwd x) :: r.2)
        | Except.error e => Except.error e)
        = _
      rw [heq]
      have hdl : (chanDrop ((t.fwd x).c / 2) (t.fwd x) :: outs').dropLast
          = chanDrop ((t.fwd x).c / 2) (t.fwd x) :: outs'.dropLast := by
        cases outs' with
        | nil => exact absurd rfl hne'
        | cons o os => rfl
      rw [hdl]
      simp only [List.getLastD_cons, List.cons_append]

/-- Claim C10: with `classify=True` and `factor_out=True`, the
classification head at the last transform index is applied to the stale
local `f` left over from the previous scale's factor-out (the last two
head inputs coincide, and none of them is the running tensor `x`); and
when the model has exactly one transform, `f` is never assigned and the
call fails with an unbound-local-variable error. -/
theorem mmflow_classify_stale_latent {α L : Type}
    (ts : List (FlowTransform α L)) (x : Tensor4 α) :
    (ts.length = 1 →
      mmflowForwardClassify ts x
        = Except.error "UnboundLocalError: local variable f referenced before assignment")
    ∧ (2 ≤ ts.length →
      ∃ outs : List (Tensor4 α), outs ≠ []
        ∧ mmflowForwardClassify ts x
            = Except.ok (outs, outs.dropLast
                ++ [outs.dropLast.getLastD ⟨0, 0, 0, []⟩])) := by
  constructor
  · intro hlen
    obtain ⟨t, rfl⟩ := List.length_eq_one.mp hlen
    rfl
  · intro hlen
    rcases ts with _ | ⟨t, ts⟩
    · simp at hlen
    rcases ts with _ | ⟨ta, ts'⟩
    · simp at hlen
    obtain ⟨outs', hne', heq⟩ := forwardClassify_some (ta :: ts')
      (chanTake ((t.fwd x).c / 2) (t.fwd x)) (chanDrop ((t.fwd x).c / 2) (t.fwd x))
      (List.cons_ne_nil _ _)
    refine ⟨chanDrop ((t.fwd x).c / 2) (t.fwd x) :: outs', by simp, ?_⟩
    show (match forwardClassify (ta :: ts') (chanTake ((t.fwd x).c / 2) (t.fwd x))
          (some (chanDrop ((t.fwd x).c / 2) (t.fwd x))) with
      | Except.ok r =>
        Except.ok (chanDrop ((t.fwd x).c / 2) (t.fwd x) :: r.1,
          chanDrop ((t.fwd x).c / 2) (t.fwd x) :: r.2)
      | Except.error e => Except.error e)
      = _
    rw [heq]
    have hdl : (chanDrop ((t.fwd x).c / 2) (t.fwd x) :: outs').dropLast
        = chanDrop ((t.fwd x).c / 2) (t.fwd x) :: outs'.dropLast := by
      cases outs' with
      | nil => exact absurd rfl hne'
      | cons o os => rfl
    rw [hdl]
    simp only [List.getLastD_cons, List.cons_append]

theorem mmflow_classify_stale_latent_witness :
    mmflowForwardClassify
        ([⟨fun t => t, fun t => t, fun t l => (t, l), fun t l => (t, l)⟩]
          : List (FlowTransform Nat Nat)) ⟨1, 4, 4, List.replicate 16 0⟩
      = Except.error "UnboundLocalError: local variable f referenced before assignment"
    ∧ ∃ outs : List (Tensor4 Nat), outs ≠ []
        ∧ mmflowForwardClassify
            ([⟨fun t => ⟨t.c * 4, t.h / 2, t.w / 2, t.data⟩,
                fun t => t, fun t l => (t, l), fun t l => (t, l)⟩,
              ⟨fun t => t, fun t => t, fun t l => (t, l), fun t l => (t, l)⟩]
              : List (FlowTransform Nat Nat)) ⟨1, 4, 4, List.replicate 16 0⟩
            = Except.ok (outs, outs.dropLast
                ++ [outs.dropLast.getLastD ⟨0, 0, 0, []⟩]) :=
  ⟨(mmflow_classify_stale_latent
      ([⟨fun t => t, fun t => t, fun t l => (t, l), fun t l => (t, l)⟩]
        : List (FlowTransform Nat Nat)) ⟨1, 4, 4, List.replicate 16 0⟩).1 rfl,
    (mmflow_classify_stale_latent
      ([⟨fun t => ⟨t.c * 4, t.h / 2, t.w / 2, t.data⟩,
          fun t => t, fun t l => (t, l), fun t l => (t, l)⟩,
        ⟨fun t => t, fun t => t, fun t l => (t, l), fun t l => (t, l)⟩]
        : List (FlowTransform Nat Nat)) ⟨1, 4, 4, List.replicate 16 0⟩).2 (by decide)⟩
